import Mathlib

/-!
Shallow embedding of `trio-rng` (src/trio_rng/cli.py): a cascade random
bit-string generator with three stages (an OpenSSL/urandom entropy source and
two quantum-simulator mixer stages).  External effects — the OS randomness
stream, SHA-256, and the two stochastic samplers — are modelled as fields of
an explicit environment `Env`; each stage is a pure function of the
environment, the configuration and its input, returning its output bit vector
together with the sampler call it makes and the verbose-log events it emits.
-/

namespace TrioRng

/-- Binary digits of one byte, most significant first.
Translates Python `format(byte, '08b')` (cli.py line 63). -/
def byteToBits (b : Nat) : List Bool :=
  [b / 128 % 2 == 1, b / 64 % 2 == 1, b / 32 % 2 == 1, b / 16 % 2 == 1,
   b / 8 % 2 == 1, b / 4 % 2 == 1, b / 2 % 2 == 1, b % 2 == 1]

/-- Concatenated binary digits of a byte block
(`''.join(format(byte, '08b') for byte in random_bytes)`, cli.py line 63). -/
def bytesToBits (bs : List Nat) : List Bool :=
  bs.flatMap byteToBits

/-- Value of a bit string read as an unsigned binary integer, as Python
`int(bitstring, 2)` on a nonempty string of binary digits. -/
def bitsToNat (l : List Bool) : Nat :=
  l.foldl (fun acc b => 2 * acc + (if b then 1 else 0)) 0

/-- Decimal digits of a natural number, most significant first (auxiliary
accumulator recursion). -/
def natDecDigitsAux : Nat → List Nat → List Nat
  | 0, acc => acc
  | n + 1, acc => natDecDigitsAux ((n + 1) / 10) ((n + 1) % 10 :: acc)
termination_by n _ => n
decreasing_by exact Nat.div_lt_self (Nat.succ_pos n) (by omega)

/-- Decimal digits of a natural number (`[0]` for zero), as in Python `str`. -/
def natDecDigits (n : Nat) : List Nat :=
  if n = 0 then [0] else natDecDigitsAux n []

/-- ASCII bytes of the decimal string of an integer:
Python `str(self.seed).encode()` (cli.py line 51). `45` is the minus sign,
`48 + d` the digit `d`. -/
def decBytes (i : Int) : List Nat :=
  if i < 0 then 45 :: (natDecDigits i.natAbs).map (fun d => 48 + d)
  else (natDecDigits i.natAbs).map (fun d => 48 + d)

/-- Configuration of a `TrioRNG` instance (cli.py lines 30-33): requested bit
count, verbose flag, optional seed. -/
structure Config where
  bits : Nat
  verbose : Bool
  seed : Option Int
deriving DecidableEq

/-- Verbose-log events, one constructor per `self.log(...)` call site in the
three stages, carrying the data interpolated into the message. -/
inductive LogEvent where
  | stage1Banner : LogEvent
  | usingSeed : Int → LogEvent
  | opensslOut : List Bool → LogEvent
  | opensslHex : Nat → LogEvent
  | stage2Banner : LogEvent
  | qiskitQubits : Nat → LogEvent
  | qiskitOut : List Bool → LogEvent
  | qiskitHex : Nat → LogEvent
  | stage3Banner : LogEvent
  | cirqQubits : Nat → LogEvent
  | cirqOut : List Bool → LogEvent
  | cirqHex : Nat → LogEvent
deriving DecidableEq

/-- Translates `TrioRNG.log` (cli.py lines 35-38): an event is emitted only
when the verbose flag is set. -/
def log (cfg : Config) (e : LogEvent) : List LogEvent :=
  if cfg.verbose then [e] else []

/-- Parameters the qiskit mixer passes to its sampler: qubit count, the input
prefix whose `1` digits get a phase mark (Z gate), the shot count, and the
`seed_simulator` argument (cli.py lines 82-107). -/
structure QiskitCall where
  numQubits : Nat
  phaseMarks : List Bool
  shots : Nat
  seedSimulator : Option Int
deriving DecidableEq

/-- Parameters the cirq mixer passes to its sampler: qubit count, the input
prefix whose `1` digits get a bit-flip-then-H mark, the repetition count, and
the seed argument actually handed to `simulator.run` (cli.py lines 146-173). -/
structure CirqCall where
  numQubits : Nat
  flipMarks : List Bool
  repetitions : Nat
  seedParam : Option Int
deriving DecidableEq

/-- The external world of the program: the OS random-byte stream, SHA-256 as
an abstract digest function, and the two samplers' responses, keyed by the
call parameters they receive.  The qiskit sampler answers with an
outcome-to-frequency association list (insertion order of the Python dict);
the cirq sampler answers with the per-shot outcome rows in sampling order. -/
structure Env where
  urandom : Nat → List Nat
  sha256 : List Nat → List Nat
  qiskitCounts : QiskitCall → List (List Bool × Nat)
  cirqShots : CirqCall → List (List Bool)

/-- Bytes needed for `bits` binary digits: `(self.bits + 7) // 8`
(cli.py line 45). -/
def numBytes (bits : Nat) : Nat :=
  (bits + 7) / 8

/-- Hash-chain expansion loop of the seeded entropy source (cli.py lines
54-56): while the block is shorter than `target`, hash the whole current
block and append the digest.  The guard also stops on an empty digest so that
the recursion is total; SHA-256 digests are never empty (32 bytes), and under
that hypothesis this is exactly the Python loop. -/
def expandBytes (H : List Nat → List Nat) (target : Nat) (block : List Nat) :
    List Nat :=
  if h : block.length < target ∧ H block ≠ [] then
    expandBytes H target (block ++ H block)
  else block
termination_by target - block.length
decreasing_by
  have h2 : 0 < (H block).length := List.length_pos.mpr h.2
  simp only [List.length_append]
  omega

/-- Byte block produced by the entropy source stage: seeded hash-chain
expansion truncated to `numBytes`, or `os.urandom` bytes
(cli.py lines 47-60). -/
def opensslBytes (env : Env) (cfg : Config) : List Nat :=
  match cfg.seed with
  | some s =>
      (expandBytes env.sha256 (numBytes cfg.bits)
        (env.sha256 (decBytes s))).take (numBytes cfg.bits)
  | none => env.urandom (numBytes cfg.bits)

/-- Stage 1, `TrioRNG.openssl_stage` (cli.py lines 40-69): byte block to
binary digits, trimmed to exactly `bits`; returns the bit string and the
verbose-log events in emission order. -/
def openssl_stage (env : Env) (cfg : Config) : List Bool × List LogEvent :=
  let randomBytes := opensslBytes env cfg
  let bitstring := (bytesToBits randomBytes).take cfg.bits
  let logs := log cfg .stage1Banner ++
    (match cfg.seed with
     | some s => log cfg (.usingSeed s)
     | none => []) ++
    log cfg (.opensslOut bitstring) ++
    log cfg (.opensslHex (bitsToNat bitstring))
  (bitstring, logs)

/-- Extraction loop shared by both mixers (cli.py lines 116-120 and 178-183):
append outcome strings to the accumulator, breaking as soon as the
accumulated length reaches `bits`. -/
def extractLoop (bits : Nat) (acc : List Bool) : List (List Bool) → List Bool
  | [] => acc
  | s :: rest =>
      if bits ≤ (acc ++ s).length then acc ++ s
      else extractLoop bits (acc ++ s) rest

/-- Self-duplication padding loop of both mixers (cli.py lines 125-126 and
188-189): while the string is shorter than `bits`, append it to itself.  The
guard also stops on the empty string so the recursion is total; in the
program the string is nonempty (each sampler outcome has at least one digit),
and then this is exactly the Python loop. -/
def padDouble (bits : Nat) (s : List Bool) : List Bool :=
  if h : s.length < bits ∧ s ≠ [] then padDouble bits (s ++ s)
  else s
termination_by bits - s.length
decreasing_by
  have h2 : 0 < s.length := List.length_pos.mpr h.2
  simp only [List.length_append]
  omega

/-- Python `sorted(counts.items(), key=lambda x: x[1], reverse=True)`
(cli.py line 114): a stable sort by frequency descending, so entries with
equal frequency keep their original (dict-insertion) order. -/
def sortByCountDesc (xs : List (List Bool × Nat)) : List (List Bool × Nat) :=
  xs.mergeSort (fun a b => b.2 ≤ a.2)

/-- Sampler-call parameters derived by the qiskit mixer (cli.py lines 76-105):
qubit count from the input's value mod 10, phase marks from the input prefix,
shot count, and `seed_simulator` passed exactly when a seed is configured. -/
def qiskitCallOf (cfg : Config) (input : List Bool) : QiskitCall :=
  let v := if input = [] then 0 else bitsToNat input
  let nq := max 1 (min cfg.bits (v % 10 + 1))
  { numQubits := nq
    phaseMarks := input.take nq
    shots := max 1024 ((cfg.bits / nq + 1) * 100)
    seedSimulator := cfg.seed }

/-- Stage 2, `TrioRNG.qiskit_stage` (cli.py lines 71-133): derive the sampler
call, sort the returned counts by frequency descending, concatenate outcome
strings until `bits` digits are reached, truncate, pad by self-duplication if
short, truncate again. -/
def qiskit_stage (env : Env) (cfg : Config) (input : List Bool) :
    List Bool × QiskitCall × List LogEvent :=
  let call := qiskitCallOf cfg input
  let counts := env.qiskitCounts call
  let sortedResults := sortByCountDesc counts
  let extracted := extractLoop cfg.bits [] (sortedResults.map Prod.fst)
  let bitstring := (padDouble cfg.bits (extracted.take cfg.bits)).take cfg.bits
  let logs := log cfg .stage2Banner ++
    log cfg (.qiskitQubits call.numQubits) ++
    log cfg (.qiskitOut bitstring) ++
    log cfg (.qiskitHex (bitsToNat bitstring))
  (bitstring, call, logs)

/-- Sampler-call parameters derived by the cirq mixer (cli.py lines 140-173):
qubit count from the input's value mod 15, flip marks from the input prefix,
repetition count.  Lines 170-173 test `self.seed is not None` but BOTH
branches call `simulator.run(circuit, repetitions=repetitions)` with no seed
argument, so the seed handed to the sampler is `none` either way; the
conditional is kept here verbatim. -/
def cirqCallOf (cfg : Config) (input : List Bool) : CirqCall :=
  let v := if input = [] then 0 else bitsToNat input
  let nq := max 1 (min cfg.bits (v % 15 + 1))
  { numQubits := nq
    flipMarks := input.take nq
    repetitions := max 1024 ((cfg.bits / nq + 1) * 100)
    seedParam := if cfg.seed.isSome then none else none }

/-- Stage 3, `TrioRNG.cirq_stage` (cli.py lines 135-196): derive the sampler
call, concatenate the per-shot outcome rows in sampling order until `bits`
digits are reached, truncate, pad by self-duplication if short, truncate
again. -/
def cirq_stage (env : Env) (cfg : Config) (input : List Bool) :
    List Bool × CirqCall × List LogEvent :=
  let call := cirqCallOf cfg input
  let measurements := env.cirqShots call
  let extracted := extractLoop cfg.bits [] measurements
  let bitstring := (padDouble cfg.bits (extracted.take cfg.bits)).take cfg.bits
  let logs := log cfg .stage3Banner ++
    log cfg (.cirqQubits call.numQubits) ++
    log cfg (.cirqOut bitstring) ++
    log cfg (.cirqHex (bitsToNat bitstring))
  (bitstring, call, logs)

/-- Membership test against the valid stage set
`{'openssl', 'qiskit', 'cirq'}` (cli.py line 203). -/
def isValidStage (s : String) : Bool :=
  s == "openssl" || s == "qiskit" || s == "cirq"

/-- Validation loop of `TrioRNG.generate` (cli.py lines 204-206): the first
cascade entry outside the valid stage set, if any. -/
def firstInvalid : List String → Option String
  | [] => none
  | s :: rest => if isValidStage s then firstInvalid rest else some s

/-- Error raised by `generate` (cli.py line 206): a `ValueError` naming the
offending stage token. -/
inductive GenError where
  | invalidStage : String → GenError
deriving DecidableEq

/-- Record of one stage execution inside `generate`, carrying the input the
stage received and the sampler call it made. -/
inductive StageEvent where
  | opensslRun : StageEvent
  | qiskitRun : List Bool → QiskitCall → StageEvent
  | cirqRun : List Bool → CirqCall → StageEvent
deriving DecidableEq

/-- Execution loop of `TrioRNG.generate` (cli.py lines 209-219): thread the
bit string through the named stages, substituting an all-zero string when a
mixer runs first; returns the final value plus the stage-event and log
traces.  A name outside the `elif` chain is skipped, as in the Python loop
(unreachable after validation). -/
def runCascade (env : Env) (cfg : Config) :
    Option (List Bool) → List String →
    Option (List Bool) × List StageEvent × List LogEvent
  | cur, [] => (cur, [], [])
  | cur, stage :: rest =>
      if stage = "openssl" then
        let o := openssl_stage env cfg
        let r := runCascade env cfg (some o.1) rest
        (r.1, .opensslRun :: r.2.1, o.2 ++ r.2.2)
      else if stage = "qiskit" then
        let inp := cur.getD (List.replicate cfg.bits false)
        let o := qiskit_stage env cfg inp
        let r := runCascade env cfg (some o.1) rest
        (r.1, .qiskitRun inp o.2.1 :: r.2.1, o.2.2 ++ r.2.2)
      else if stage = "cirq" then
        let inp := cur.getD (List.replicate cfg.bits false)
        let o := cirq_stage env cfg inp
        let r := runCascade env cfg (some o.1) rest
        (r.1, .cirqRun inp o.2.1 :: r.2.1, o.2.2 ++ r.2.2)
      else runCascade env cfg cur rest

/-- `TrioRNG.generate` (cli.py lines 198-221): validate every cascade name
first, raising on the first invalid one before any stage executes; then run
the cascade from `bitstring = None`. -/
def generate (env : Env) (cfg : Config) (cascade : List String) :
    Except GenError (Option (List Bool)) × List StageEvent × List LogEvent :=
  match firstInvalid cascade with
  | some s => (.error (.invalidStage s), [], [])
  | none =>
      let r := runCascade env cfg none cascade
      (.ok r.1, r.2.1, r.2.2)

/-- Chain of byte blocks described by the spec for the seeded entropy
expansion: step `k + 1` hashes the entire accumulated block and appends the
new digest. -/
def specChain (H : List Nat → List Nat) (d0 : List Nat) : Nat → List Nat
  | 0 => d0
  | k + 1 => specChain H d0 k ++ H (specChain H d0 k)

/-! ### Helper lemmas -/

theorem byteToBits_length (b : Nat) : (byteToBits b).length = 8 := rfl

theorem bytesToBits_length (bs : List Nat) :
    (bytesToBits bs).length = 8 * bs.length := by
  induction bs with
  | nil => rfl
  | cons b rest ih =>
      simp only [bytesToBits, List.flatMap_cons, List.length_append] at *
      rw [ih]
      simp [byteToBits]
      ring

theorem expandBytes_length_ge (H : List Nat → List Nat)
    (hH : ∀ x, H x ≠ []) (target : Nat) :
    ∀ fuel block, target - block.length ≤ fuel →
      target ≤ (expandBytes H target block).length := by
  intro fuel
  induction fuel with
  | zero =>
      intro block hb
      rw [expandBytes]
      split
      · next h => exact absurd h.1 (by omega)
      · next h => omega
  | succ n ih =>
      intro block hb
      rw [expandBytes]
      split
      · next h =>
          apply ih
          have hpos : 0 < (H block).length := List.length_pos.mpr (hH block)
          have h1 := h.1
          simp only [List.length_append]
          omega
      · next h =>
          push_neg at h
          have := h
          by_cases hlt : block.length < target
          · exact absurd (this hlt) (hH block)
          · omega

theorem padDouble_length_ge (bits : Nat) :
    ∀ fuel s, s ≠ [] → bits - s.length ≤ fuel →
      bits ≤ (padDouble bits s).length := by
  intro fuel
  induction fuel with
  | zero =>
      intro s hne hb
      rw [padDouble]
      split
      · next h => exact absurd h.1 (by omega)
      · next h => omega
  | succ n ih =>
      intro s hne hb
      rw [padDouble]
      split
      · next h =>
          apply ih _ (by simp [hne])
          have hpos : 0 < s.length := List.length_pos.mpr hne
          have h1 := h.1
          simp only [List.length_append]
          omega
      · next h =>
          push_neg at h
          by_cases hlt : s.length < bits
          · exact absurd (h hlt) hne
          · omega

theorem padDouble_take_length (bits : Nat) (s : List Bool) (hne : s ≠ []) :
    ((padDouble bits s).take bits).length = bits := by
  have h := padDouble_length_ge bits bits s hne (by omega)
  rw [List.length_take]
  omega

theorem length_le_extractLoop (bits : Nat) :
    ∀ (xs : List (List Bool)) (acc : List Bool),
      acc.length ≤ (extractLoop bits acc xs).length := by
  intro xs
  induction xs with
  | nil => intro acc; simp [extractLoop]
  | cons s rest ih =>
      intro acc
      rw [extractLoop]
      split
      · simp
      · calc acc.length ≤ (acc ++ s).length := by simp
          _ ≤ _ := ih (acc ++ s)

theorem extractLoop_cons_length (bits : Nat) (s : List Bool)
    (rest : List (List Bool)) :
    s.length ≤ (extractLoop bits [] (s :: rest)).length := by
  rw [extractLoop]
  split
  · simp
  · have h := length_le_extractLoop bits rest ([] ++ s)
    simpa using h

theorem mixer_output_length (bits : Nat) (hb : 0 < bits)
    (outs : List (List Bool)) (hne : outs ≠ [])
    (hno : ∀ o ∈ outs, o ≠ []) :
    ((padDouble bits
      ((extractLoop bits [] outs).take bits)).take bits).length = bits := by
  obtain ⟨s, rest, rfl⟩ := List.exists_cons_of_ne_nil hne
  have hs : s ≠ [] := hno s (by simp)
  have h1 : 0 < s.length := List.length_pos.mpr hs
  have h2 := extractLoop_cons_length bits s rest
  have h3 : (extractLoop bits [] (s :: rest)).take bits ≠ [] := by
    rw [← List.length_pos, List.length_take]
    omega
  exact padDouble_take_length bits _ h3

theorem bitsToNat_replicate_false (n : Nat) :
    bitsToNat (List.replicate n false) = 0 := by
  induction n with
  | zero => rfl
  | succ m ih =>
      simpa [bitsToNat, List.replicate_succ] using ih

/-! ### Witness environments -/

/-- Concrete environment for witness instantiations: constant random stream,
constant 32-byte digest, degenerate one-entry sampler responses. -/
def envW : Env where
  urandom := fun n => List.replicate n 0
  sha256 := fun _ => List.replicate 32 1
  qiskitCounts := fun c => [(List.replicate c.numQubits true, 5)]
  cirqShots := fun c => [List.replicate c.numQubits false]

/-- Second concrete environment, differing from `envW` in the OS random
stream and the sampler responses but agreeing on the digest function. -/
def envW2 : Env where
  urandom := fun n => List.replicate n 7
  sha256 := fun _ => List.replicate 32 1
  qiskitCounts := fun _ => []
  cirqShots := fun _ => []

/-! ### Claims -/

/-- C1: for every `bits > 0`, under the well-formedness guarantees of the
external collaborators (urandom returns the requested byte count, SHA-256
digests are 32 bytes, each sampler returns a nonempty response whose outcome
strings have the requested qubit width), the bit vector returned by each of
the three stages has length exactly `bits`, for every input. -/
theorem C1_stage_output_length (env : Env) (cfg : Config)
    (hb : 0 < cfg.bits)
    (hu : ∀ n, (env.urandom n).length = n)
    (hH : ∀ x, (env.sha256 x).length = 32)
    (hq : ∀ c, env.qiskitCounts c ≠ [] ∧
      ∀ p ∈ env.qiskitCounts c, p.1.length = c.numQubits)
    (hc : ∀ c, env.cirqShots c ≠ [] ∧
      ∀ m ∈ env.cirqShots c, m.length = c.numQubits) :
    (openssl_stage env cfg).1.length = cfg.bits ∧
    ∀ input, (qiskit_stage env cfg input).1.length = cfg.bits ∧
      (cirq_stage env cfg input).1.length = cfg.bits := by
  refine ⟨?_, fun input => ⟨?_, ?_⟩⟩
  · have hbytes : (opensslBytes env cfg).length = numBytes cfg.bits := by
      unfold opensslBytes
      cases hs : cfg.seed with
      | some s =>
          rw [List.length_take]
          have h1 := expandBytes_length_ge env.sha256
            (fun x h0 => by have h2 := hH x; rw [h0] at h2; simp at h2)
            (numBytes cfg.bits) (numBytes cfg.bits)
            (env.sha256 (decBytes s)) (by omega)
          omega
      | none => exact hu _
    have e1 : (openssl_stage env cfg).1 =
        (bytesToBits (opensslBytes env cfg)).take cfg.bits := rfl
    rw [e1, List.length_take, bytesToBits_length, hbytes]
    have hmod : (cfg.bits + 7) % 8 < 8 := Nat.mod_lt _ (by omega)
    have hdm := Nat.div_add_mod (cfg.bits + 7) 8
    unfold numBytes
    omega
  · have h := hq (qiskitCallOf cfg input)
    have e1 : (qiskit_stage env cfg input).1 =
        (padDouble cfg.bits
          ((extractLoop cfg.bits []
            ((sortByCountDesc
              (env.qiskitCounts (qiskitCallOf cfg input))).map
                Prod.fst)).take cfg.bits)).take cfg.bits := rfl
    rw [e1]
    have hlen : (sortByCountDesc
        (env.qiskitCounts (qiskitCallOf cfg input))).length =
        (env.qiskitCounts (qiskitCallOf cfg input)).length := by
      simp [sortByCountDesc]
    have hcne : 0 < (env.qiskitCounts (qiskitCallOf cfg input)).length :=
      List.length_pos.mpr h.1
    apply mixer_output_length cfg.bits hb
    · rw [← List.length_pos, List.length_map, hlen]
      exact hcne
    · intro o ho
      simp only [List.mem_map] at ho
      obtain ⟨p, hp, rfl⟩ := ho
      have hpc : p ∈ env.qiskitCounts (qiskitCallOf cfg input) := by
        simpa [sortByCountDesc] using hp
      have hlen2 := h.2 p hpc
      have hnq : (qiskitCallOf cfg input).numQubits =
          max 1 (min cfg.bits
            ((if input = [] then 0 else bitsToNat input) % 10 + 1)) := rfl
      rw [← List.length_pos, hlen2, hnq]
      omega
  · have h := hc (cirqCallOf cfg input)
    have e1 : (cirq_stage env cfg input).1 =
        (padDouble cfg.bits
          ((extractLoop cfg.bits []
            (env.cirqShots (cirqCallOf cfg input))).take
              cfg.bits)).take cfg.bits := rfl
    rw [e1]
    apply mixer_output_length cfg.bits hb _ h.1
    intro o ho
    have hlen2 := h.2 o ho
    have hnq : (cirqCallOf cfg input).numQubits =
        max 1 (min cfg.bits
          ((if input = [] then 0 else bitsToNat input) % 15 + 1)) := rfl
    rw [← List.length_pos, hlen2, hnq]
    omega

/-- Witness for C1 at `bits = 8`, `seed = 42`, in the concrete environment
`envW`. -/
theorem C1_witness :
    (openssl_stage envW ⟨8, false, some 42⟩).1.length = 8 ∧
    (qiskit_stage envW ⟨8, false, some 42⟩ (List.replicate 8 true)).1.length
      = 8 ∧
    (cirq_stage envW ⟨8, false, some 42⟩ (List.replicate 8 true)).1.length
      = 8 := by
  obtain ⟨h1, h2⟩ := C1_stage_output_length envW ⟨8, false, some 42⟩
    (by decide)
    (fun n => by simp [envW])
    (fun x => by simp [envW])
    (fun c => ⟨by simp [envW], by simp [envW]⟩)
    (fun c => ⟨by simp [envW], by simp [envW]⟩)
  exact ⟨h1, (h2 _).1, (h2 _).2⟩

/-- C2: the claim says both mixers invoke their sampler in a seeded,
deterministic mode whenever a seed is configured.  The qiskit mixer does pass
`seed_simulator` (cli.py line 105), but the cirq mixer's conditional on
`self.seed` has two identical branches that both call `simulator.run` with no
seed (cli.py lines 170-173), so the cirq sampler is invoked unseeded even
when a seed is present: with `bits = 8`, `seed = 42`, the recorded cirq call
carries no seed. -/
theorem C2_cirq_seed_dropped :
    (qiskitCallOf ⟨8, false, some 42⟩
      (List.replicate 8 false)).seedSimulator = some 42 ∧
    (cirqCallOf ⟨8, false, some 42⟩
      (List.replicate 8 false)).seedParam = none :=
  ⟨rfl, rfl⟩

/-- C3: with a seed present, the entropy source's output depends only on
`(bits, seed)` (and the fixed digest function): two runs against different OS
randomness streams and sampler environments return the same bit vector. -/
theorem C3_seeded_source_deterministic (env1 env2 : Env)
    (cfg1 cfg2 : Config) (s : Int) (hb : 0 < cfg1.bits)
    (hbits : cfg1.bits = cfg2.bits)
    (hs1 : cfg1.seed = some s) (hs2 : cfg2.seed = some s)
    (hsha : env1.sha256 = env2.sha256) :
    (openssl_stage env1 cfg1).1 = (openssl_stage env2 cfg2).1 := by
  have e1 : (openssl_stage env1 cfg1).1 =
      (bytesToBits (opensslBytes env1 cfg1)).take cfg1.bits := rfl
  have e2 : (openssl_stage env2 cfg2).1 =
      (bytesToBits (opensslBytes env2 cfg2)).take cfg2.bits := rfl
  rw [e1, e2, hbits]
  unfold opensslBytes
  rw [hs1, hs2, hsha, hbits]

/-- Witness for C3: two environments that differ in their OS randomness
stream (and verbose flags) give the same seeded output at
`(bits, seed) = (8, 42)`. -/
theorem C3_witness :
    (openssl_stage envW ⟨8, false, some 42⟩).1 =
    (openssl_stage envW2 ⟨8, true, some 42⟩).1 :=
  C3_seeded_source_deterministic envW envW2 ⟨8, false, some 42⟩
    ⟨8, true, some 42⟩ 42 (by decide) rfl rfl rfl rfl

/-- C5: both mixers derive their qubit count from the input read as an
unsigned binary integer `v` (`bitsToNat input`, which is `0` on the empty
input): variant A computes `max 1 (min bits (v % 10 + 1))`, variant B uses
modulus 15. -/
theorem C5_qubit_count_formula (cfg : Config) (input : List Bool) :
    (qiskitCallOf cfg input).numQubits =
      max 1 (min cfg.bits (bitsToNat input % 10 + 1)) ∧
    (cirqCallOf cfg input).numQubits =
      max 1 (min cfg.bits (bitsToNat input % 15 + 1)) := by
  by_cases h : input = [] <;>
    simp [qiskitCallOf, cirqCallOf, h, bitsToNat]

/-- C8: a nonempty concatenation shorter than `bits` at least doubles at each
padding step, the (total) padding loop reaches length at least `bits`, and
the final truncation has length exactly `bits`. -/
theorem C8_padding_terminates_exact (bits : Nat) (s : List Bool)
    (hne : s ≠ []) (hshort : s.length < bits) :
    (s ++ s).length = 2 * s.length ∧
    bits ≤ (padDouble bits s).length ∧
    ((padDouble bits s).take bits).length = bits := by
  refine ⟨?_, ?_, padDouble_take_length bits s hne⟩
  · rw [List.length_append]; omega
  · exact padDouble_length_ge bits bits s hne (by omega)

/-- Witness for C8 at `s = [true]`, `bits = 5`. -/
theorem C8_witness :
    ([true] ≠ ([] : List Bool)) ∧ [true].length < 5 ∧
    (([true] ++ [true] : List Bool).length = 2 * [true].length ∧
     5 ≤ (padDouble 5 [true]).length ∧
     ((padDouble 5 [true]).take 5).length = 5) :=
  ⟨by decide, by decide,
   C8_padding_terminates_exact 5 [true] (by decide) (by decide)⟩

theorem firstInvalid_of_invalid_mem :
    ∀ (cascade : List String), (∃ x ∈ cascade, isValidStage x = false) →
      ∃ s ∈ cascade, firstInvalid cascade = some s ∧
        isValidStage s = false := by
  intro cascade
  induction cascade with
  | nil => rintro ⟨x, hx, _⟩; cases hx
  | cons a rest ih =>
      rintro ⟨x, hx, hxv⟩
      by_cases ha : isValidStage a
      · have hxr : x ∈ rest := by
          rcases List.mem_cons.mp hx with rfl | hr
          · rw [ha] at hxv; cases hxv
          · exact hr
        obtain ⟨s, hsm, hs1, hs2⟩ := ih ⟨x, hxr, hxv⟩
        exact ⟨s, by simp [hsm], by simp [firstInvalid, ha, hs1], hs2⟩
      · exact ⟨a, by simp, by simp [firstInvalid, ha], by simpa using ha⟩

/-- C4: a cascade containing a name outside the valid stage set makes
`generate` fail with an error naming an invalid token, with an empty
stage-event trace and an empty log trace: no entropy-source run and no
sampler call happens. -/
theorem C4_invalid_cascade_fails_fast (env : Env) (cfg : Config)
    (cascade : List String)
    (h : ∃ x ∈ cascade, isValidStage x = false) :
    ∃ s ∈ cascade, isValidStage s = false ∧
      generate env cfg cascade = (.error (.invalidStage s), [], []) := by
  obtain ⟨s, hsm, hs1, hs2⟩ := firstInvalid_of_invalid_mem cascade h
  exact ⟨s, hsm, hs2, by simp [generate, hs1]⟩

/-- Witness for C4 on the cascade `["openssl", "bogus", "qiskit"]`. -/
theorem C4_witness :
    isValidStage "bogus" = false ∧
    ∃ s ∈ ["openssl", "bogus", "qiskit"], isValidStage s = false ∧
      generate envW ⟨8, false, none⟩ ["openssl", "bogus", "qiskit"] =
        (.error (.invalidStage s), [], []) :=
  ⟨by decide, C4_invalid_cascade_fails_fast envW ⟨8, false, none⟩
    ["openssl", "bogus", "qiskit"] ⟨"bogus", by decide, by decide⟩⟩

theorem expandBytes_eq_specChain (H : List Nat → List Nat) (target : Nat)
    (hH : ∀ x, H x ≠ []) :
    ∀ fuel j d0, target - (specChain H d0 j).length ≤ fuel →
      ∃ k, expandBytes H target (specChain H d0 j) = specChain H d0 k := by
  intro fuel
  induction fuel with
  | zero =>
      intro j d0 hb
      refine ⟨j, ?_⟩
      rw [expandBytes]
      split
      · next h => exact absurd h.1 (by omega)
      · rfl
  | succ n ih =>
      intro j d0 hb
      rw [expandBytes]
      split
      · next h =>
          have hstep : specChain H d0 j ++ H (specChain H d0 j) =
              specChain H d0 (j + 1) := rfl
          rw [hstep]
          apply ih (j + 1) d0
          have hpos : 0 < (H (specChain H d0 j)).length :=
            List.length_pos.mpr (hH _)
          have hlen : (specChain H d0 (j + 1)).length =
              (specChain H d0 j).length + (H (specChain H d0 j)).length := by
            rw [← hstep, List.length_append]
          have h1 := h.1
          omega
      · exact ⟨j, rfl⟩

/-- C6: with a seed present and a required byte count exceeding one 32-byte
digest, the seeded byte block equals the truncation (to the required byte
count) of a block in the hash chain that starts from the digest of the
seed's decimal string and grows by hashing the entire accumulated block and
appending each new digest. -/
theorem C6_hash_chain_expansion (env : Env) (cfg : Config) (s : Int)
    (hseed : cfg.seed = some s)
    (hH : ∀ x, (env.sha256 x).length = 32)
    (hbig : 32 < numBytes cfg.bits) :
    ∃ k, opensslBytes env cfg =
      (specChain env.sha256 (env.sha256 (decBytes s)) k).take
        (numBytes cfg.bits) := by
  have hne : ∀ x, env.sha256 x ≠ [] := fun x h0 => by
    have h2 := hH x
    rw [h0] at h2
    simp at h2
  obtain ⟨k, hk⟩ := expandBytes_eq_specChain env.sha256 (numBytes cfg.bits)
    hne (numBytes cfg.bits) 0 (env.sha256 (decBytes s)) (by omega)
  refine ⟨k, ?_⟩
  simp only [opensslBytes, hseed]
  have h0 : specChain env.sha256 (env.sha256 (decBytes s)) 0 =
      env.sha256 (decBytes s) := rfl
  rw [h0] at hk
  rw [hk]

/-- Witness for C6 at `bits = 264` (33 required bytes, more than one
digest), `seed = 5`. -/
theorem C6_witness :
    32 < numBytes 264 ∧
    ∃ k, opensslBytes envW ⟨264, false, some 5⟩ =
      (specChain envW.sha256 (envW.sha256 (decBytes 5)) k).take
        (numBytes 264) :=
  ⟨by decide, C6_hash_chain_expansion envW ⟨264, false, some 5⟩ 5 rfl
    (fun x => by simp [envW]) (by decide)⟩

/-- C7: the qiskit mixer's output is obtained by concatenating outcome
strings taken from a reordering of the sampler's count map that is sorted by
frequency descending, stopping once `bits` digits are accumulated, then
truncating (and self-duplication padding if short); the cirq mixer applies
the same stop-and-truncate extraction to the per-shot outcome rows in
sampling order, with no sorting. -/
theorem C7_extraction_order (env : Env) (cfg : Config) (input : List Bool) :
    (∃ ys : List (List Bool × Nat),
      List.Perm ys (env.qiskitCounts (qiskitCallOf cfg input)) ∧
      ys.Pairwise (fun a b => b.2 ≤ a.2) ∧
      (qiskit_stage env cfg input).1 =
        (padDouble cfg.bits
          ((extractLoop cfg.bits [] (ys.map Prod.fst)).take
            cfg.bits)).take cfg.bits) ∧
    (cirq_stage env cfg input).1 =
      (padDouble cfg.bits
        ((extractLoop cfg.bits []
          (env.cirqShots (cirqCallOf cfg input))).take
            cfg.bits)).take cfg.bits := by
  refine ⟨⟨sortByCountDesc (env.qiskitCounts (qiskitCallOf cfg input)),
    List.mergeSort_perm _ _, ?_, rfl⟩, rfl⟩
  have hs : (List.mergeSort (env.qiskitCounts (qiskitCallOf cfg input))
      (fun a b => decide (b.2 ≤ a.2))).Pairwise
        (fun a b => decide (b.2 ≤ a.2) = true) :=
    List.sorted_mergeSort
      (fun a b c hab hbc => by
        simp only [decide_eq_true_eq] at hab hbc ⊢
        omega)
      (fun a b => by
        simp only [Bool.or_eq_true, decide_eq_true_eq]
        omega)
      (env.qiskitCounts (qiskitCallOf cfg input))
  exact hs.imp (fun h => of_decide_eq_true h)

theorem runCascade_verbose_independent (env : Env) (bits : Nat)
    (seed : Option Int) (v1 v2 : Bool) :
    ∀ (cascade : List String) (cur : Option (List Bool)),
      (runCascade env ⟨bits, v1, seed⟩ cur cascade).1 =
        (runCascade env ⟨bits, v2, seed⟩ cur cascade).1 ∧
      (runCascade env ⟨bits, v1, seed⟩ cur cascade).2.1 =
        (runCascade env ⟨bits, v2, seed⟩ cur cascade).2.1 := by
  intro cascade
  induction cascade with
  | nil => intro cur; exact ⟨rfl, rfl⟩
  | cons stage rest ih =>
      intro cur
      simp only [runCascade]
      split_ifs with h1 h2 h3
      · have ho : (openssl_stage env ⟨bits, v1, seed⟩).1 =
            (openssl_stage env ⟨bits, v2, seed⟩).1 := rfl
        rw [ho]
        exact ⟨(ih _).1, by rw [(ih _).2]⟩
      · have ho : ∀ inp, (qiskit_stage env ⟨bits, v1, seed⟩ inp).1 =
            (qiskit_stage env ⟨bits, v2, seed⟩ inp).1 := fun _ => rfl
        have hcall : ∀ inp, (qiskit_stage env ⟨bits, v1, seed⟩ inp).2.1 =
            (qiskit_stage env ⟨bits, v2, seed⟩ inp).2.1 := fun _ => rfl
        rw [ho, hcall]
        exact ⟨(ih _).1, by rw [(ih _).2]⟩
      · have ho : ∀ inp, (cirq_stage env ⟨bits, v1, seed⟩ inp).1 =
            (cirq_stage env ⟨bits, v2, seed⟩ inp).1 := fun _ => rfl
        have hcall : ∀ inp, (cirq_stage env ⟨bits, v1, seed⟩ inp).2.1 =
            (cirq_stage env ⟨bits, v2, seed⟩ inp).2.1 := fun _ => rfl
        rw [ho, hcall]
        exact ⟨(ih _).1, by rw [(ih _).2]⟩
      · exact ih cur

/-- C10: the verbose flag influences only the emitted log events: each
stage's output bit vector, `generate`'s result and `generate`'s stage-event
trace (hence every sampler call made) are identical between a verbose and a
quiet run with the same bits, seed, environment, input and cascade. -/
theorem C10_verbose_only_logging (env : Env) (bits : Nat)
    (seed : Option Int) (v1 v2 : Bool) (input : List Bool)
    (cascade : List String) :
    (openssl_stage env ⟨bits, v1, seed⟩).1 =
      (openssl_stage env ⟨bits, v2, seed⟩).1 ∧
    (qiskit_stage env ⟨bits, v1, seed⟩ input).1 =
      (qiskit_stage env ⟨bits, v2, seed⟩ input).1 ∧
    (cirq_stage env ⟨bits, v1, seed⟩ input).1 =
      (cirq_stage env ⟨bits, v2, seed⟩ input).1 ∧
    (generate env ⟨bits, v1, seed⟩ cascade).1 =
      (generate env ⟨bits, v2, seed⟩ cascade).1 ∧
    (generate env ⟨bits, v1, seed⟩ cascade).2.1 =
      (generate env ⟨bits, v2, seed⟩ cascade).2.1 := by
  have h := runCascade_verbose_independent env bits seed v1 v2 cascade none
  refine ⟨rfl, rfl, rfl, ?_, ?_⟩ <;>
    cases hfi : firstInvalid cascade <;>
      simp [generate, hfi, h.1, h.2]

/-- C9: when a mixer stage is placed first in a valid cascade (no preceding
source stage), it receives the all-zero bit vector of length `bits` as
input, and its derived qubit count is `max 1 (min bits (0 % m + 1)) = 1`. -/
theorem C9_mixer_first_all_zero (env : Env) (cfg : Config)
    (rest : List String) (hrest : firstInvalid rest = none) :
    ((generate env cfg ("qiskit" :: rest)).2.1.head? =
      some (.qiskitRun (List.replicate cfg.bits false)
        (qiskitCallOf cfg (List.replicate cfg.bits false)))) ∧
    (qiskitCallOf cfg (List.replicate cfg.bits false)).numQubits = 1 ∧
    ((generate env cfg ("cirq" :: rest)).2.1.head? =
      some (.cirqRun (List.replicate cfg.bits false)
        (cirqCallOf cfg (List.replicate cfg.bits false)))) ∧
    (cirqCallOf cfg (List.replicate cfg.bits false)).numQubits = 1 := by
  have hv1 : firstInvalid ("qiskit" :: rest) = none := by
    simpa [firstInvalid, isValidStage] using hrest
  have hv2 : firstInvalid ("cirq" :: rest) = none := by
    simpa [firstInvalid, isValidStage] using hrest
  refine ⟨?_, ?_, ?_, ?_⟩
  · simp only [generate, hv1, runCascade]
    simp only [reduceIte, Option.getD_none, List.head?_cons]
    rfl
  · have h : (qiskitCallOf cfg (List.replicate cfg.bits false)).numQubits =
        max 1 (min cfg.bits
          ((if List.replicate cfg.bits false = ([] : List Bool) then 0
            else bitsToNat (List.replicate cfg.bits false)) % 10 + 1)) := rfl
    rw [h, bitsToNat_replicate_false]
    simp only [ite_self]
    omega
  · simp only [generate, hv2, runCascade]
    simp only [reduceIte, Option.getD_none, List.head?_cons]
    rfl
  · have h : (cirqCallOf cfg (List.replicate cfg.bits false)).numQubits =
        max 1 (min cfg.bits
          ((if List.replicate cfg.bits false = ([] : List Bool) then 0
            else bitsToNat (List.replicate cfg.bits false)) % 15 + 1)) := rfl
    rw [h, bitsToNat_replicate_false]
    simp only [ite_self]
    omega

/-- Witness for C9 with `bits = 8` and singleton cascades. -/
theorem C9_witness :
    ((generate envW ⟨8, false, none⟩ ["qiskit"]).2.1.head? =
      some (.qiskitRun (List.replicate 8 false)
        (qiskitCallOf ⟨8, false, none⟩ (List.replicate 8 false)))) ∧
    (qiskitCallOf ⟨8, false, none⟩ (List.replicate 8 false)).numQubits = 1 ∧
    ((generate envW ⟨8, false, none⟩ ["cirq"]).2.1.head? =
      some (.cirqRun (List.replicate 8 false)
        (cirqCallOf ⟨8, false, none⟩ (List.replicate 8 false)))) ∧
    (cirqCallOf ⟨8, false, none⟩ (List.replicate 8 false)).numQubits = 1 :=
  C9_mixer_first_all_zero envW ⟨8, false, none⟩ [] rfl

end TrioRng
